import Mathlib

/-
Verification of the header-insertion tool in tools/openrouter/add-headers-pr.ts
(the exported implementation: loadIgnore, expectedHeader, hasHeader,
viaOpenRouter, run).

Shallow embedding: file contents and paths are lists of characters, the
filesystem is an association list from repository-relative paths to file
contents, the version-control staging area is a list of staged paths, and
the optional remote rewrite collaborator is an oracle function from
(path, content) to the extracted response text.
-/

/-- A JavaScript string, embedded as its list of characters. -/
abbrev Str := List Char

/-- Shorthand turning a Lean string literal into the embedding type. -/
def str (s : String) : Str := s.toList

/-- JS String.prototype.split with a one-character separator: splitting the
empty string yields one empty field, and each occurrence of the separator
closes the current field and opens a new one. -/
def splitOnChar (c : Char) : Str → List Str
  | [] => [[]]
  | x :: xs =>
    match splitOnChar c xs with
    | [] => [[]]
    | y :: ys => if x = c then [] :: y :: ys else (x :: y) :: ys

/-- JS Array.prototype.join with a one-character separator. -/
def joinSep (c : Char) : List Str → Str
  | [] => []
  | [x] => x
  | x :: y :: ys => x ++ c :: joinSep c (y :: ys)

/-- Index of the first occurrence of a character, if any; JS
String.prototype.indexOf returns -1 exactly when this returns none. -/
def firstIdx (c : Char) : Str → Option Nat
  | [] => none
  | x :: xs => if x = c then some 0 else (firstIdx c xs).map (· + 1)

/-- rel.split(sep).join(forward slash); on the POSIX platform the path
separator sep is itself the forward slash. -/
def normSep (rel : Str) : Str := joinSep '/' (splitOnChar '/' rel)

/-- rel.endsWith(s). -/
def endsW (rel s : Str) : Bool := List.isSuffixOf s rel

/-- content.startsWith(s). -/
def startsW (content s : Str) : Bool := List.isPrefixOf s content

/-- hay.includes(needle). -/
def includesStr (hay needle : Str) : Bool := decide (needle <:+: hay)

/-- rel.split(forward slash).pop(): the last path segment (the split list is
never empty, so the default never fires). -/
def lastSegment (rel : Str) : Str := ((splitOnChar '/' rel).getLast?).getD []

/-- The apostrophe character, kept out of string literals. -/
def apos : Char := Char.ofNat 39

/-- The backtick-quoted path marker used inside the .mdc front-matter block
and searched for by the .mdc detection branch. -/
def mdcNeedle (p : Str) : Str := str "`// " ++ p ++ str "`"

/-- The .mdc front-matter block: the source joins a nine-element line array
with line breaks (the globs line contains two apostrophes, spliced here as
the apos character). -/
def mdcBlock (p : Str) : Str :=
  joinSep '\n'
    [str "---", str "description: |", str "  " ++ mdcNeedle p,
     str "  ... restante da descrição ...", [],
     str "globs: [" ++ [apos, '*', apos] ++ str "]",
     str "alwaysApply: true", str "---", []]

/-- The header text and insertion offset computed by expectedHeader. -/
structure HeaderSpec where
  header : Str
  insertAt : Nat
deriving DecidableEq

/-- expectedHeader(rel, content): resolves the header template for the path
and the offset at which it is spliced in.  In the shell branch the source
computes content.indexOf(newline) + 1; indexOf yields -1 when the content
has no line break, so the offset is 0 in that case. -/
def expectedHeader (rel content : Str) : HeaderSpec :=
  let unixPath := normSep rel
  if endsW rel (str ".ts") || endsW rel (str ".tsx") ||
      endsW rel (str ".js") || endsW rel (str ".jsx") then
    ⟨str "// " ++ unixPath ++ str "\n", 0⟩
  else if endsW rel (str ".yaml") || endsW rel (str ".yml") then
    ⟨str "# " ++ unixPath ++ str "\n", 0⟩
  else if endsW rel (str ".md") then
    ⟨str "<!-- " ++ unixPath ++ str " -->\n\n", 0⟩
  else if endsW rel (str ".mdc") then
    ⟨mdcBlock unixPath ++ str "\n", 0⟩
  else if lastSegment rel = str "Makefile" then
    ⟨str "# " ++ unixPath ++ str "\n", 0⟩
  else if endsW rel (str ".sh") || endsW rel (str ".bash") || endsW rel (str ".zsh") then
    if startsW content (str "#!") then
      ⟨str "# " ++ unixPath ++ str "\n",
        match firstIdx '\n' content with
        | some i => i + 1
        | none => 0⟩
    else
      ⟨str "# " ++ unixPath ++ str "\n", 0⟩
  else
    ⟨str "# " ++ unixPath ++ str "\n", 0⟩

/-- hasHeader(rel, content): decides whether the file already carries its
header; the shell branch searches the first two lines for the rendered
path comment. -/
def hasHeader (rel content : Str) : Bool :=
  let unixPath := normSep rel
  if endsW rel (str ".md") then
    startsW content (str "<!-- " ++ unixPath ++ str " -->")
  else if endsW rel (str ".yaml") || endsW rel (str ".yml") then
    startsW content (str "# " ++ unixPath)
  else if endsW rel (str ".mdc") then
    startsW content (str "---") && includesStr content (mdcNeedle unixPath)
  else if lastSegment rel = str "Makefile" then
    startsW content (str "# " ++ unixPath)
  else if endsW rel (str ".sh") || endsW rel (str ".bash") || endsW rel (str ".zsh") then
    includesStr (joinSep '\n' ((splitOnChar '\n' content).take 2)) (str "# " ++ unixPath)
  else
    startsW content (str "// " ++ unixPath)

/-- The environment variables consulted by viaOpenRouter. -/
structure Env where
  openrouterToken : Option Str
  useOpenrouter : Option Str

/-- JS truthiness of an optional string: an absent or empty string is falsy. -/
def jsTruthy : Option Str → Bool
  | none => false
  | some s => !s.isEmpty

/-- viaOpenRouter(rel, content, target): when the token is falsy or the
enable flag is not the string true, the deterministic target is returned
unchanged; otherwise the oracle stands for the HTTP call together with the
response-text extraction (whose missing fields collapse to the empty string
through the null-coalescing default), and an empty extraction also falls
back to the target. -/
def viaOpenRouter (env : Env) (oracle : Str → Str → Str)
    (rel content target : Str) : Str :=
  if jsTruthy env.openrouterToken = false ∨ env.useOpenrouter ≠ some (str "true") then
    target
  else if (oracle rel content).isEmpty then target
  else oracle rel content

/-- readFileSync and existsSync over the association-list filesystem: a path
maps to its content, or to none when the file does not exist. -/
def fsRead : List (Str × Str) → Str → Option Str
  | [], _ => none
  | (q, v) :: rest, p => if q = p then some v else fsRead rest p

/-- writeFileSync over the association-list filesystem. -/
def fsWrite : List (Str × Str) → Str → Str → List (Str × Str)
  | [], p, v => [(p, v)]
  | (q, w) :: rest, p, v =>
    if q = p then (p, v) :: rest else (q, w) :: fsWrite rest p v

/-- The mutable state a run acts on: the working-copy filesystem and the
list of paths staged with the version-control collaborator. -/
structure RunState where
  fs : List (Str × Str)
  staged : List Str
deriving DecidableEq

/-- loadIgnore walks the candidate configuration files in their fixed order
and builds the predicate from the first one that exists; igMatch stands for
the external ignore-pattern package applied to the line-split patterns. -/
def loadIgnoreFrom (igMatch : List Str → Str → Bool)
    (fs : List (Str × Str)) : List Str → (Str → Bool)
  | [] => fun _ => false
  | cand :: cands =>
    match fsRead fs cand with
    | none => loadIgnoreFrom igMatch fs cands
    | some patterns => igMatch (splitOnChar '\n' patterns)

/-- loadIgnore(root): candidates are the new-name file then the legacy file. -/
def loadIgnore (igMatch : List Str → Str → Bool)
    (fs : List (Str × Str)) : Str → Bool :=
  loadIgnoreFrom igMatch fs [str ".addheaderignore", str ".addheader"]

/-- The deterministic target: original.slice(0, insertAt) + header +
original.slice(insertAt). -/
def deterministicNext (rel content : Str) : Str :=
  content.take (expectedHeader rel content).insertAt ++
    (expectedHeader rel content).header ++
    content.drop (expectedHeader rel content).insertAt

/-- One iteration of the loop body of run for a single path. -/
def runStep (env : Env) (oracle : Str → Str → Str)
    (st : RunState) (rel : Str) : RunState × Nat :=
  match fsRead st.fs rel with
  | none => (st, 0)
  | some original =>
    if hasHeader rel original then (st, 0)
    else
      let maybe := viaOpenRouter env oracle rel original (deterministicNext rel original)
      if maybe ≠ original then
        (⟨fsWrite st.fs rel maybe, st.staged ++ [rel]⟩, 1)
      else (st, 0)

/-- The loop of run over the filtered change set, accumulating the edit
count. -/
def runFiles (env : Env) (oracle : Str → Str → Str) :
    RunState → List Str → RunState × Nat
  | st, [] => (st, 0)
  | st, rel :: rest =>
    let s1 := runStep env oracle st rel
    let s2 := runFiles env oracle s1.1 rest
    (s2.1, s1.2 + s2.2)

/-- run: load the ignore predicate, filter the change set through it, and
process the remaining paths in order, returning the final state and the
number of files edited. -/
def run (igMatch : List Str → Str → Bool) (env : Env)
    (oracle : Str → Str → Str) (st : RunState)
    (changedFiles : List Str) : RunState × Nat :=
  let ignores := loadIgnore igMatch st.fs
  runFiles env oracle st (changedFiles.filter (fun p => !ignores p))

/-- Modelled from the spec: the external ignore-pattern collaborator
(standard ignore-file syntax) is not part of this repository; for plain
literal patterns without glob characters a pattern matches exactly the path
equal to it, and empty lines match nothing. -/
def simpleIgnoreMatch (patterns : List Str) (p : Str) : Bool :=
  patterns.any (fun pat => !pat.isEmpty && decide (pat = p))

/-- Follows the spec's words for the withinFirstLines detection: the value
appears within the content's first n lines (split on line breaks, first n
rejoined, substring search); n defaults to 2. -/
def withinFirstLines (n : Nat) (value content : Str) : Bool :=
  includesStr (joinSep '\n' ((splitOnChar '\n' content).take n)) value

/-- The shell-script path test shared by expectedHeader and hasHeader. -/
def isShellPath (rel : Str) : Bool :=
  endsW rel (str ".sh") || endsW rel (str ".bash") || endsW rel (str ".zsh")

/-- The file kinds for which expectedHeader resolves a dedicated rule. -/
def recognizedPath (rel : Str) : Bool :=
  endsW rel (str ".ts") || endsW rel (str ".tsx") ||
  endsW rel (str ".js") || endsW rel (str ".jsx") ||
  endsW rel (str ".yaml") || endsW rel (str ".yml") ||
  endsW rel (str ".md") || endsW rel (str ".mdc") ||
  isShellPath rel || decide (lastSegment rel = str "Makefile")

/- ### String infrastructure lemmas -/

theorem suffix_comparable {s₁ s₂ l : Str} (h₁ : s₁ <:+ l) (h₂ : s₂ <:+ l) :
    s₁ <:+ s₂ ∨ s₂ <:+ s₁ := by
  have h₁r : s₁.reverse <+: l.reverse := List.reverse_prefix.mpr h₁
  have h₂r : s₂.reverse <+: l.reverse := List.reverse_prefix.mpr h₂
  rcases List.prefix_or_prefix_of_prefix h₁r h₂r with h | h
  · exact Or.inl ( List.reverse_prefix.mp h)
  · exact Or.inr ( List.reverse_prefix.mp h)

theorem endsW_iff {rel s : Str} : endsW rel s = true ↔ s <:+ rel :=
  List.isSuffixOf_iff_suffix

theorem startsW_iff {content s : Str} : startsW content s = true ↔ s <+: content :=
  List.isPrefixOf_iff_prefix

theorem includesStr_iff {hay needle : Str} :
    includesStr hay needle = true ↔ needle <:+: hay := by
  simp [includesStr]

theorem endsW_false {rel s₁ s₂ : Str} (h : endsW rel s₁ = true)
    (h₁ : ¬ s₁ <:+ s₂) (h₂ : ¬ s₂ <:+ s₁) : endsW rel s₂ = false := by
  cases hb : endsW rel s₂ with
  | false => rfl
  | true =>
    rcases suffix_comparable (endsW_iff.mp h) (endsW_iff.mp hb) with h' | h'
    · exact absurd h' h₁
    · exact absurd h' h₂

theorem splitOnChar_ne_nil (c : Char) (l : Str) : splitOnChar c l ≠ [] := by
  cases l with
  | nil => simp [splitOnChar]
  | cons x xs =>
    simp only [splitOnChar]
    cases h : splitOnChar c xs with
    | nil => simp
    | cons y ys => by_cases hx : x = c <;> simp [hx]

theorem splitOnChar_no_sep {c : Char} {l : Str} (h : c ∉ l) :
    splitOnChar c l = [l] := by
  induction l with
  | nil => rfl
  | cons x xs ih =>
    have hx : ¬ x = c := fun hh => h (by rw [hh]; exact List.mem_cons_self c xs)
    have hxs : c ∉ xs := fun hm => h (List.mem_cons_of_mem x hm)
    simp [splitOnChar, ih hxs, hx]

theorem splitOnChar_eq_single {c : Char} {l y : Str}
    (h : splitOnChar c l = [y]) : l = y := by
  induction l generalizing y with
  | nil => simpa [splitOnChar] using h.symm
  | cons x xs ih =>
    simp only [splitOnChar] at h
    cases hs : splitOnChar c xs with
    | nil => exact absurd hs (splitOnChar_ne_nil c xs)
    | cons y' ys' =>
      rw [hs] at h
      by_cases hx : x = c
      · simp [hx] at h
      · simp only [if_neg hx] at h
        obtain ⟨h1, h2⟩ := List.cons.injEq _ _ _ _ ▸ h
        subst h2
        rw [← h1, ih hs]

theorem splitOnChar_append {c : Char} {a : Str} (t : Str) (h : c ∉ a) :
    splitOnChar c (a ++ c :: t) = a :: splitOnChar c t := by
  induction a with
  | nil =>
    simp only [List.nil_append, splitOnChar]
    cases hs : splitOnChar c t with
    | nil => exact absurd hs (splitOnChar_ne_nil c t)
    | cons y ys => simp
  | cons x a' ih =>
    have hx : ¬ x = c := fun hh => h (by rw [hh]; exact List.mem_cons_self c a')
    have ha' : c ∉ a' := fun hm => h (List.mem_cons_of_mem x hm)
    simp only [List.cons_append, splitOnChar, List.append_eq]
    rw [ih ha']
    simp [hx]

theorem joinSep_cons (c : Char) (a : Str) {r : List Str} (h : r ≠ []) :
    joinSep c (a :: r) = a ++ c :: joinSep c r := by
  cases r with
  | nil => exact absurd rfl h
  | cons y ys => rfl

theorem joinSep_cons_head (c : Char) (x : Char) (y : Str) (ys : List Str) :
    joinSep c ((x :: y) :: ys) = x :: joinSep c (y :: ys) := by
  cases ys <;> simp [joinSep]

theorem normSep_id (l : Str) : normSep l = l := by
  unfold normSep
  induction l with
  | nil => rfl
  | cons x xs ih =>
    simp only [splitOnChar]
    cases h : splitOnChar '/' xs with
    | nil => exact absurd h (splitOnChar_ne_nil _ _)
    | cons y ys =>
      rw [h] at ih
      by_cases hx : x = '/'
      · subst hx
        show joinSep '/' ([] :: y :: ys) = '/' :: xs
        rw [joinSep_cons '/' [] (List.cons_ne_nil y ys)]
        simpa using ih
      · simp only [if_neg hx]
        rw [joinSep_cons_head, ih]

theorem lastSegment_suffix (rel : Str) : lastSegment rel <:+ rel := by
  unfold lastSegment
  induction rel with
  | nil => simp [splitOnChar]
  | cons x xs ih =>
    simp only [splitOnChar]
    cases h : splitOnChar '/' xs with
    | nil => exact absurd h (splitOnChar_ne_nil _ _)
    | cons y ys =>
      rw [h] at ih
      by_cases hx : x = '/'
      · simp only [if_pos hx]
        rw [List.getLast?_cons_cons]
        exact ih.trans (List.suffix_cons x xs)
      · simp only [if_neg hx]
        cases ys with
        | nil =>
          have hxy : xs = y := splitOnChar_eq_single h
          subst hxy
          simp
        | cons z zs =>
          rw [List.getLast?_cons_cons] at ih ⊢
          exact ih.trans (List.suffix_cons x xs)

theorem firstIdx_append {c : Char} {pre : Str} (suf : Str) (h : c ∉ pre) :
    firstIdx c (pre ++ c :: suf) = some pre.length := by
  induction pre with
  | nil => simp [firstIdx]
  | cons x xs ih =>
    have hx : ¬ x = c := fun hh => h (by rw [hh]; exact List.mem_cons_self c xs)
    have hxs : c ∉ xs := fun hm => h (List.mem_cons_of_mem x hm)
    simp [firstIdx, hx, ih hxs]

theorem firstIdx_none {c : Char} {l : Str} (h : firstIdx c l = none) : c ∉ l := by
  induction l with
  | nil => simp
  | cons x xs ih =>
    simp only [firstIdx] at h
    by_cases hx : x = c
    · simp [hx] at h
    · simp only [if_neg hx, Option.map_eq_none'] at h
      intro hm
      rcases List.mem_cons.mp hm with hm | hm
      · exact hx hm.symm
      · exact ih h hm

theorem firstIdx_some {c : Char} {l : Str} {i : Nat} (h : firstIdx c l = some i) :
    ∃ pre suf, l = pre ++ c :: suf ∧ c ∉ pre ∧ pre.length = i := by
  induction l generalizing i with
  | nil => simp [firstIdx] at h
  | cons x xs ih =>
    simp only [firstIdx] at h
    by_cases hx : x = c
    · refine ⟨[], xs, by simp [hx], by simp, ?_⟩
      simp [hx] at h
      simpa using h
    · simp only [if_neg hx, Option.map_eq_some'] at h
      obtain ⟨j, hj, hji⟩ := h
      obtain ⟨pre, suf, hdec, hnot, hlen⟩ := ih hj
      refine ⟨x :: pre, suf, by simp [hdec], ?_, by simp [hlen, hji]⟩
      intro hm
      rcases List.mem_cons.mp hm with hm | hm
      · exact hx hm.symm
      · exact hnot hm

/- ### Branch exclusivity: the recognized file kinds are pairwise disjoint -/

theorem endsW_lastSegment_ne {rel s : Str} (h : endsW rel s = true)
    (h₁ : ¬ s <:+ str "Makefile") (h₂ : ¬ str "Makefile" <:+ s) :
    ¬ (lastSegment rel = str "Makefile") := by
  intro he
  have hseg := lastSegment_suffix rel
  rw [he] at hseg
  rcases suffix_comparable (endsW_iff.mp h) hseg with h' | h'
  · exact h₁ h'
  · exact h₂ h'

theorem lastSegment_not_endsW {rel s : Str} (h : lastSegment rel = str "Makefile")
    (h₁ : ¬ s <:+ str "Makefile") (h₂ : ¬ str "Makefile" <:+ s) :
    endsW rel s = false := by
  cases hb : endsW rel s with
  | false => rfl
  | true =>
    have hseg := lastSegment_suffix rel
    rw [h] at hseg
    rcases suffix_comparable (endsW_iff.mp hb) hseg with h' | h'
    · exact absurd h' h₁
    · exact absurd h' h₂

theorem shell_cases {rel : Str} (h : isShellPath rel = true) :
    endsW rel (str ".sh") = true ∨ endsW rel (str ".bash") = true ∨
    endsW rel (str ".zsh") = true := by
  simpa [isShellPath, Bool.or_eq_true, or_assoc] using h

theorem shell_not_endsW (s : Str) {rel : Str} (h : isShellPath rel = true)
    (hx : (¬ str ".sh" <:+ s ∧ ¬ s <:+ str ".sh") ∧
          (¬ str ".bash" <:+ s ∧ ¬ s <:+ str ".bash") ∧
          (¬ str ".zsh" <:+ s ∧ ¬ s <:+ str ".zsh")) :
    endsW rel s = false := by
  obtain ⟨⟨a1, a2⟩, ⟨b1, b2⟩, ⟨c1, c2⟩⟩ := hx
  rcases shell_cases h with h' | h' | h'
  · exact endsW_false h' a1 a2
  · exact endsW_false h' b1 b2
  · exact endsW_false h' c1 c2

theorem shell_lastSegment_ne {rel : Str} (h : isShellPath rel = true) :
    ¬ (lastSegment rel = str "Makefile") := by
  rcases shell_cases h with h' | h' | h'
  · exact endsW_lastSegment_ne h' (by decide) (by decide)
  · exact endsW_lastSegment_ne h' (by decide) (by decide)
  · exact endsW_lastSegment_ne h' (by decide) (by decide)

theorem or2_true {a b : Bool} (h : (a || b) = true) : a = true ∨ b = true := by
  simpa using h

theorem tsGroup_false_of_endsW (s : Str) {rel : Str} (h : endsW rel s = true)
    (hx : (¬ s <:+ str ".ts" ∧ ¬ str ".ts" <:+ s) ∧
          (¬ s <:+ str ".tsx" ∧ ¬ str ".tsx" <:+ s) ∧
          (¬ s <:+ str ".js" ∧ ¬ str ".js" <:+ s) ∧
          (¬ s <:+ str ".jsx" ∧ ¬ str ".jsx" <:+ s)) :
    (endsW rel (str ".ts") || endsW rel (str ".tsx") ||
     endsW rel (str ".js") || endsW rel (str ".jsx")) = false := by
  obtain ⟨⟨a1, a2⟩, ⟨b1, b2⟩, ⟨c1, c2⟩, ⟨d1, d2⟩⟩ := hx
  rw [endsW_false h a1 a2, endsW_false h b1 b2, endsW_false h c1 c2,
    endsW_false h d1 d2]
  rfl

/- ### Branch evaluation of expectedHeader per file kind -/

theorem expectedHeader_ts {rel content : Str}
    (h : (endsW rel (str ".ts") || endsW rel (str ".tsx") ||
          endsW rel (str ".js") || endsW rel (str ".jsx")) = true) :
    expectedHeader rel content = ⟨str "// " ++ rel ++ str "\n", 0⟩ := by
  unfold expectedHeader
  simp [h, normSep_id]

theorem expectedHeader_yaml {rel content : Str}
    (h : (endsW rel (str ".yaml") || endsW rel (str ".yml")) = true) :
    expectedHeader rel content = ⟨str "# " ++ rel ++ str "\n", 0⟩ := by
  have hts : (endsW rel (str ".ts") || endsW rel (str ".tsx") ||
      endsW rel (str ".js") || endsW rel (str ".jsx")) = false := by
    rcases or2_true h with h' | h'
    · exact tsGroup_false_of_endsW (str ".yaml") h' (by decide)
    · exact tsGroup_false_of_endsW (str ".yml") h' (by decide)
  unfold expectedHeader
  simp [hts, h, normSep_id]

theorem expectedHeader_md {rel content : Str} (h : endsW rel (str ".md") = true) :
    expectedHeader rel content = ⟨str "<!-- " ++ rel ++ str " -->\n\n", 0⟩ := by
  have hts := tsGroup_false_of_endsW (str ".md") h (by decide)
  have hyaml := endsW_false h (by decide : ¬ str ".md" <:+ str ".yaml") (by decide)
  have hyml := endsW_false h (by decide : ¬ str ".md" <:+ str ".yml") (by decide)
  unfold expectedHeader
  simp [hts, hyaml, hyml, h, normSep_id]

theorem expectedHeader_mdc {rel content : Str} (h : endsW rel (str ".mdc") = true) :
    expectedHeader rel content = ⟨mdcBlock rel ++ str "\n", 0⟩ := by
  have hts := tsGroup_false_of_endsW (str ".mdc") h (by decide)
  have hyaml := endsW_false h (by decide : ¬ str ".mdc" <:+ str ".yaml") (by decide)
  have hyml := endsW_false h (by decide : ¬ str ".mdc" <:+ str ".yml") (by decide)
  have hmd := endsW_false h (by decide : ¬ str ".mdc" <:+ str ".md") (by decide)
  unfold expectedHeader
  simp [hts, hyaml, hyml, hmd, h, normSep_id]

theorem expectedHeader_makefile {rel content : Str}
    (h : lastSegment rel = str "Makefile") :
    expectedHeader rel content = ⟨str "# " ++ rel ++ str "\n", 0⟩ := by
  have hts := lastSegment_not_endsW h (by decide : ¬ str ".ts" <:+ str "Makefile") (by decide)
  have htsx := lastSegment_not_endsW h (by decide : ¬ str ".tsx" <:+ str "Makefile") (by decide)
  have hjs := lastSegment_not_endsW h (by decide : ¬ str ".js" <:+ str "Makefile") (by decide)
  have hjsx := lastSegment_not_endsW h (by decide : ¬ str ".jsx" <:+ str "Makefile") (by decide)
  have hyaml := lastSegment_not_endsW h (by decide : ¬ str ".yaml" <:+ str "Makefile") (by decide)
  have hyml := lastSegment_not_endsW h (by decide : ¬ str ".yml" <:+ str "Makefile") (by decide)
  have hmd := lastSegment_not_endsW h (by decide : ¬ str ".md" <:+ str "Makefile") (by decide)
  have hmdc := lastSegment_not_endsW h (by decide : ¬ str ".mdc" <:+ str "Makefile") (by decide)
  unfold expectedHeader
  simp [hts, htsx, hjs, hjsx, hyaml, hyml, hmd, hmdc, h, normSep_id]

theorem expectedHeader_shell {rel content : Str} (h : isShellPath rel = true) :
    expectedHeader rel content =
      if startsW content (str "#!") then
        ⟨str "# " ++ rel ++ str "\n",
          match firstIdx '\n' content with
          | some i => i + 1
          | none => 0⟩
      else
        ⟨str "# " ++ rel ++ str "\n", 0⟩ := by
  have hts := shell_not_endsW (str ".ts") h (by decide)
  have htsx := shell_not_endsW (str ".tsx") h (by decide)
  have hjs := shell_not_endsW (str ".js") h (by decide)
  have hjsx := shell_not_endsW (str ".jsx") h (by decide)
  have hyaml := shell_not_endsW (str ".yaml") h (by decide)
  have hyml := shell_not_endsW (str ".yml") h (by decide)
  have hmd := shell_not_endsW (str ".md") h (by decide)
  have hmdc := shell_not_endsW (str ".mdc") h (by decide)
  have hmk := shell_lastSegment_ne h
  have hsh : (endsW rel (str ".sh") || endsW rel (str ".bash") ||
      endsW rel (str ".zsh")) = true := h
  unfold expectedHeader
  simp [hts, htsx, hjs, hjsx, hyaml, hyml, hmd, hmdc, hmk, hsh, normSep_id]

/- ### Branch evaluation of hasHeader per file kind -/

theorem hasHeader_md {rel content : Str} (h : endsW rel (str ".md") = true) :
    hasHeader rel content = startsW content (str "<!-- " ++ rel ++ str " -->") := by
  unfold hasHeader
  simp [h, normSep_id]

theorem hasHeader_yaml {rel content : Str}
    (h : (endsW rel (str ".yaml") || endsW rel (str ".yml")) = true) :
    hasHeader rel content = startsW content (str "# " ++ rel) := by
  have hmd : endsW rel (str ".md") = false := by
    rcases or2_true h with h' | h'
    · exact endsW_false h' (by decide) (by decide)
    · exact endsW_false h' (by decide) (by decide)
  unfold hasHeader
  simp [hmd, h, normSep_id]

theorem hasHeader_mdc {rel content : Str} (h : endsW rel (str ".mdc") = true) :
    hasHeader rel content =
      (startsW content (str "---") && includesStr content (mdcNeedle rel)) := by
  have hmd := endsW_false h (by decide : ¬ str ".mdc" <:+ str ".md") (by decide)
  have hyaml := endsW_false h (by decide : ¬ str ".mdc" <:+ str ".yaml") (by decide)
  have hyml := endsW_false h (by decide : ¬ str ".mdc" <:+ str ".yml") (by decide)
  unfold hasHeader
  simp [hmd, hyaml, hyml, h, normSep_id]

theorem hasHeader_makefile {rel content : Str}
    (h : lastSegment rel = str "Makefile") :
    hasHeader rel content = startsW content (str "# " ++ rel) := by
  have hmd := lastSegment_not_endsW h (by decide : ¬ str ".md" <:+ str "Makefile") (by decide)
  have hyaml := lastSegment_not_endsW h (by decide : ¬ str ".yaml" <:+ str "Makefile") (by decide)
  have hyml := lastSegment_not_endsW h (by decide : ¬ str ".yml" <:+ str "Makefile") (by decide)
  have hmdc := lastSegment_not_endsW h (by decide : ¬ str ".mdc" <:+ str "Makefile") (by decide)
  unfold hasHeader
  simp [hmd, hyaml, hyml, hmdc, h, normSep_id]

theorem hasHeader_shell {rel content : Str} (h : isShellPath rel = true) :
    hasHeader rel content =
      includesStr (joinSep '\n' ((splitOnChar '\n' content).take 2))
        (str "# " ++ rel) := by
  have hmd := shell_not_endsW (str ".md") h (by decide)
  have hyaml := shell_not_endsW (str ".yaml") h (by decide)
  have hyml := shell_not_endsW (str ".yml") h (by decide)
  have hmdc := shell_not_endsW (str ".mdc") h (by decide)
  have hmk := shell_lastSegment_ne h
  have hsh : (endsW rel (str ".sh") || endsW rel (str ".bash") ||
      endsW rel (str ".zsh")) = true := h
  unfold hasHeader
  simp [hmd, hyaml, hyml, hmdc, hmk, hsh, normSep_id]

theorem hasHeader_default_of (s : Str) {rel content : Str} (h : endsW rel s = true)
    (hx : (¬ s <:+ str ".md" ∧ ¬ str ".md" <:+ s) ∧
          (¬ s <:+ str ".yaml" ∧ ¬ str ".yaml" <:+ s) ∧
          (¬ s <:+ str ".yml" ∧ ¬ str ".yml" <:+ s) ∧
          (¬ s <:+ str ".mdc" ∧ ¬ str ".mdc" <:+ s) ∧
          (¬ s <:+ str "Makefile" ∧ ¬ str "Makefile" <:+ s) ∧
          (¬ s <:+ str ".sh" ∧ ¬ str ".sh" <:+ s) ∧
          (¬ s <:+ str ".bash" ∧ ¬ str ".bash" <:+ s) ∧
          (¬ s <:+ str ".zsh" ∧ ¬ str ".zsh" <:+ s)) :
    hasHeader rel content = startsW content (str "// " ++ rel) := by
  obtain ⟨⟨a1, a2⟩, ⟨b1, b2⟩, ⟨c1, c2⟩, ⟨d1, d2⟩, ⟨e1, e2⟩, ⟨f1, f2⟩, ⟨g1, g2⟩,
    ⟨i1, i2⟩⟩ := hx
  have hmd := endsW_false h a1 a2
  have hyaml := endsW_false h b1 b2
  have hyml := endsW_false h c1 c2
  have hmdc := endsW_false h d1 d2
  have hmk := endsW_lastSegment_ne h e1 e2
  have hsh := endsW_false h f1 f2
  have hbash := endsW_false h g1 g2
  have hzsh := endsW_false h i1 i2
  unfold hasHeader
  simp [hmd, hyaml, hyml, hmdc, hmk, hsh, hbash, hzsh, normSep_id]

/- ### Pipeline lemmas -/

theorem fsRead_fsWrite_ne {fs : List (Str × Str)} {p v q : Str} (h : ¬ q = p) :
    fsRead (fsWrite fs p v) q = fsRead fs q := by
  induction fs with
  | nil =>
    simp only [fsWrite, fsRead]
    rw [if_neg (fun hh => h hh.symm)]
  | cons e rest ih =>
    obtain ⟨k, w⟩ := e
    simp only [fsWrite]
    by_cases hk : k = p
    · subst hk
      simp only [if_pos rfl, fsRead]
      rw [if_neg (fun hh => h hh.symm), if_neg (fun hh => h hh.symm)]
    · simp only [if_neg hk, fsRead]
      by_cases hkq : k = q
      · rw [if_pos hkq, if_pos hkq]
      · rw [if_neg hkq, if_neg hkq, ih]

theorem runStep_headered {env : Env} {oracle : Str → Str → Str}
    {st : RunState} {rel : Str}
    (h : ∀ c, fsRead st.fs rel = some c → hasHeader rel c = true) :
    runStep env oracle st rel = (st, 0) := by
  unfold runStep
  rcases hr : fsRead st.fs rel with _ | c
  · rfl
  · simp [h c hr]

theorem runFiles_no_edits {env : Env} {oracle : Str → Str → Str}
    {st : RunState} {l : List Str}
    (h : ∀ rel ∈ l, ∀ c, fsRead st.fs rel = some c → hasHeader rel c = true) :
    runFiles env oracle st l = (st, 0) := by
  induction l with
  | nil => rfl
  | cons rel rest ih =>
    have h1 : runStep env oracle st rel = (st, 0) :=
      runStep_headered (fun c hc => h rel (List.mem_cons_self rel rest) c hc)
    have h2 : runFiles env oracle st rest = (st, 0) :=
      ih (fun r hr c hc => h r (List.mem_cons_of_mem rel hr) c hc)
    simp [runFiles, h1, h2]

theorem runStep_fs_preserved {env : Env} {oracle : Str → Str → Str}
    {st : RunState} {rel q : Str}
    (h : ∀ c, fsRead st.fs rel = some c → hasHeader rel c = true) :
    fsRead ((runStep env oracle st q).1).fs rel = fsRead st.fs rel := by
  unfold runStep
  rcases hq : fsRead st.fs q with _ | c
  · rfl
  · dsimp only
    by_cases hh : hasHeader q c = true
    · rw [if_pos hh]
    · rw [if_neg hh]
      by_cases hm : viaOpenRouter env oracle q c (deterministicNext q c) ≠ c
      · rw [if_pos hm]
        by_cases hqr : q = rel
        · subst hqr
          exact absurd (h c hq) hh
        · exact fsRead_fsWrite_ne (fun hh' => hqr hh'.symm)
      · rw [if_neg hm]

theorem runFiles_preserves_headered {env : Env} {oracle : Str → Str → Str}
    {rel : Str} :
    ∀ (l : List Str) (st : RunState),
      (∀ c, fsRead st.fs rel = some c → hasHeader rel c = true) →
      fsRead ((runFiles env oracle st l).1).fs rel = fsRead st.fs rel := by
  intro l
  induction l with
  | nil => intro st _; rfl
  | cons q rest ih =>
    intro st h
    have hstep : fsRead ((runStep env oracle st q).1).fs rel = fsRead st.fs rel :=
      runStep_fs_preserved h
    have hstep2 :
        fsRead ((runFiles env oracle (runStep env oracle st q).1 rest).1).fs rel =
          fsRead ((runStep env oracle st q).1).fs rel :=
      ih _ (fun c hc => h c (hstep.symm.trans hc))
    calc fsRead ((runFiles env oracle st (q :: rest)).1).fs rel
        = fsRead ((runFiles env oracle (runStep env oracle st q).1 rest).1).fs rel := rfl
      _ = fsRead ((runStep env oracle st q).1).fs rel := hstep2
      _ = fsRead st.fs rel := hstep

/- ### Claim theorems -/

/-- C1: a file whose content already satisfies its resolved rule (hasHeader
is true for its path and content) is left byte-identical by run, and when
every file of the change set already satisfies its rule — as after a
previous run over the same unchanged inputs — run returns the state
unchanged with an edit count of zero. -/
theorem run_idempotent_on_headered (igMatch : List Str → Str → Bool)
    (env : Env) (oracle : Str → Str → Str) (st : RunState)
    (changed : List Str) (rel : Str)
    (h : ∀ c, fsRead st.fs rel = some c → hasHeader rel c = true) :
    fsRead ((run igMatch env oracle st changed).1).fs rel = fsRead st.fs rel ∧
    ((∀ r ∈ changed, ∀ c, fsRead st.fs r = some c → hasHeader r c = true) →
      run igMatch env oracle st changed = (st, 0)) := by
  constructor
  · exact runFiles_preserves_headered _ st h
  · intro hall
    exact runFiles_no_edits (fun r hr c hc => hall r (List.mem_of_mem_filter hr) c hc)

/-- Witness for C1 at a one-file filesystem whose file already carries its
header. -/
theorem run_idempotent_on_headered_witness :
    fsRead ((run simpleIgnoreMatch ⟨none, none⟩ (fun _ _ => [])
        ⟨[(str "a.ts", str "// a.ts\nbody")], []⟩ [str "a.ts"]).1).fs (str "a.ts") =
      fsRead [(str "a.ts", str "// a.ts\nbody")] (str "a.ts") ∧
    ((∀ r ∈ [str "a.ts"], ∀ c,
        fsRead [(str "a.ts", str "// a.ts\nbody")] r = some c → hasHeader r c = true) →
      run simpleIgnoreMatch ⟨none, none⟩ (fun _ _ => [])
        ⟨[(str "a.ts", str "// a.ts\nbody")], []⟩ [str "a.ts"] =
        (⟨[(str "a.ts", str "// a.ts\nbody")], []⟩, 0)) := by
  apply run_idempotent_on_headered
  intro c hc
  have hc' : str "// a.ts\nbody" = c := by simpa [fsRead] using hc
  subst hc'
  decide

/-- C2: loadIgnore checks the new-name ignore file before the legacy one and
loads exclusively the first found: whenever the new-name file exists, the
returned predicate is built from that file's patterns alone, so the legacy
file's contents are never consulted, even if both files exist. -/
theorem loadIgnore_new_name_wins (igMatch : List Str → Str → Bool)
    (fs : List (Str × Str)) (pats : Str)
    (h : fsRead fs (str ".addheaderignore") = some pats) :
    loadIgnore igMatch fs = igMatch (splitOnChar '\n' pats) := by
  unfold loadIgnore loadIgnoreFrom
  rw [h]

/-- Witness for C2 at a filesystem holding both ignore files: the legacy
file's patterns are ignored. -/
theorem loadIgnore_new_name_wins_witness :
    loadIgnore simpleIgnoreMatch
        [(str ".addheaderignore", str "a.txt"), (str ".addheader", str "b.txt")] =
      simpleIgnoreMatch (splitOnChar '\n' (str "a.txt")) := by
  apply loadIgnore_new_name_wins
  decide

/-- C3 (divergence evaluation): for the shell path run.sh with the
newline-free shebang content, the code computes insertion offset 0 — the
indexOf result -1 plus one — so the deterministic target places the header
before the shebang, not at the end-of-content offset 9 that the
afterShebang rule specifies. -/
theorem expectedHeader_shebang_without_newline :
    (expectedHeader (str "run.sh") (str "#!/bin/sh")).insertAt = 0 ∧
    (str "#!/bin/sh").length = 9 ∧
    deterministicNext (str "run.sh") (str "#!/bin/sh") =
      str "# run.sh\n#!/bin/sh" := by decide

/-- C5: viaOpenRouter returns the deterministic target exactly when the
collaborator is disabled (falsy token or enable flag not the string true)
or when the extracted response is empty; a non-empty response from an
enabled collaborator is returned as is, so the result is always either the
target or the collaborator's non-empty output. -/
theorem viaOpenRouter_fallback (env : Env) (oracle : Str → Str → Str)
    (rel content target : Str) :
    (viaOpenRouter env oracle rel content target = target ∨
     viaOpenRouter env oracle rel content target = oracle rel content) ∧
    ((jsTruthy env.openrouterToken = false ∨ env.useOpenrouter ≠ some (str "true")) →
      viaOpenRouter env oracle rel content target = target) ∧
    (oracle rel content = [] →
      viaOpenRouter env oracle rel content target = target) ∧
    (jsTruthy env.openrouterToken = true → env.useOpenrouter = some (str "true") →
      oracle rel content ≠ [] →
      viaOpenRouter env oracle rel content target = oracle rel content) := by
  unfold viaOpenRouter
  by_cases hd : jsTruthy env.openrouterToken = false ∨ env.useOpenrouter ≠ some (str "true")
  · rw [if_pos hd]
    refine ⟨Or.inl rfl, fun _ => rfl, fun _ => rfl, ?_⟩
    intro h1 h2 _
    rcases hd with hd | hd
    · exact absurd (h1.symm.trans hd) (by decide)
    · exact absurd h2 hd
  · rw [if_neg hd]
    by_cases he : oracle rel content = []
    · have hie : (oracle rel content).isEmpty = true := List.isEmpty_iff.mpr he
      rw [if_pos hie]
      exact ⟨Or.inl rfl, fun _ => rfl, fun _ => rfl, fun _ _ h3 => absurd he h3⟩
    · have hie : ¬ (oracle rel content).isEmpty = true := by
        simpa [List.isEmpty_iff] using he
      rw [if_neg hie]
      exact ⟨Or.inr rfl, fun hc => absurd hc hd, fun hc => absurd hc he,
        fun _ _ _ => rfl⟩

/-- Witness for C5: with a truthy token, the enable flag set to true, and a
non-empty response, viaOpenRouter returns the response. -/
theorem viaOpenRouter_fallback_witness :
    viaOpenRouter ⟨some (str "t"), some (str "true")⟩ (fun _ _ => str "X")
      (str "a.ts") (str "b") (str "tgt") = str "X" :=
  (viaOpenRouter_fallback ⟨some (str "t"), some (str "true")⟩ (fun _ _ => str "X")
    (str "a.ts") (str "b") (str "tgt")).2.2.2 (by decide) rfl (by decide)

/-- C6: a path of the change set that does not exist on the filesystem is
skipped without any state change and contributes zero edits, and the loop
proceeds with the remaining paths exactly as if the missing path were not
there. -/
theorem run_skips_missing_file (env : Env) (oracle : Str → Str → Str)
    (st : RunState) (rel : Str) (rest : List Str)
    (h : fsRead st.fs rel = none) :
    runStep env oracle st rel = (st, 0) ∧
    runFiles env oracle st (rel :: rest) = runFiles env oracle st rest := by
  have h1 : runStep env oracle st rel = (st, 0) := by
    unfold runStep
    rw [h]
  refine ⟨h1, ?_⟩
  simp [runFiles, h1, Prod.mk.eta]

/-- Witness for C6 on the empty filesystem. -/
theorem run_skips_missing_file_witness :
    runStep ⟨none, none⟩ (fun _ _ => []) ⟨[], []⟩ (str "gone.ts") = (⟨[], []⟩, 0) ∧
    runFiles ⟨none, none⟩ (fun _ _ => []) ⟨[], []⟩ [str "gone.ts"] =
      runFiles ⟨none, none⟩ (fun _ _ => []) ⟨[], []⟩ [] :=
  run_skips_missing_file ⟨none, none⟩ (fun _ _ => []) ⟨[], []⟩ (str "gone.ts") [] rfl

theorem insertAt_cases (rel content : Str) :
    (expectedHeader rel content).insertAt = 0 ∨
    ∃ i, firstIdx '\n' content = some i ∧
      (expectedHeader rel content).insertAt = i + 1 := by
  unfold expectedHeader
  dsimp only
  repeat' split
  all_goals first
    | exact Or.inl rfl
    | exact Or.inr ⟨_, by assumption, rfl⟩

theorem firstIdx_lt_length {c : Char} {l : Str} {i : Nat}
    (h : firstIdx c l = some i) : i + 1 ≤ l.length := by
  obtain ⟨pre, suf, rfl, -, rfl⟩ := firstIdx_some h
  simp [List.length_append]

/-- C9: for every path and content, the computed insertion offset lies
within the content, and the spliced result is the original content with
exactly the header text inserted between its two halves. -/
theorem insertAt_in_bounds_and_splice (rel content : Str) :
    (expectedHeader rel content).insertAt ≤ content.length ∧
    ∃ pre suf, content = pre ++ suf ∧
      deterministicNext rel content =
        pre ++ (expectedHeader rel content).header ++ suf := by
  refine ⟨?_, content.take (expectedHeader rel content).insertAt,
    content.drop (expectedHeader rel content).insertAt,
    (List.take_append_drop _ _).symm, rfl⟩
  rcases insertAt_cases rel content with h | ⟨i, hi, h⟩
  · rw [h]
    exact Nat.zero_le _
  · rw [h]
    exact firstIdx_lt_length hi

/-- C8: for every shell-script path, hasHeader holds exactly when the
rendered path comment occurs as a substring of the content's first two
lines — the spec's withinFirstLines detection with its default line count
of two. -/
theorem hasHeader_shell_eq_withinFirstLines (rel content : Str)
    (h : isShellPath rel = true) :
    hasHeader rel content = withinFirstLines 2 (str "# " ++ normSep rel) content := by
  rw [hasHeader_shell h]
  unfold withinFirstLines
  rw [normSep_id]

/-- Witness for C8 on a concrete shell script carrying its header on the
second line. -/
theorem hasHeader_shell_eq_withinFirstLines_witness :
    hasHeader (str "r.sh") (str "#!x\n# r.sh\nbody") =
      withinFirstLines 2 (str "# " ++ normSep (str "r.sh")) (str "#!x\n# r.sh\nbody") :=
  hasHeader_shell_eq_withinFirstLines (str "r.sh") (str "#!x\n# r.sh\nbody") (by decide)

theorem take_append_one {pre suf : Str} (x : Char) :
    (pre ++ x :: suf).take (pre.length + 1) = pre ++ [x] := by
  have h := @List.take_append Char pre (x :: suf) 1
  simpa using h

theorem drop_append_one {pre suf : Str} (x : Char) :
    (pre ++ x :: suf).drop (pre.length + 1) = suf := by
  have h := @List.drop_append Char pre (x :: suf) 1
  simpa using h

/-- C4 counterexample: at the shell-script path containing a line break the
claim's preconditions all hold — shell path, content beginning with a
shebang followed later by a newline, rule not yet satisfied — yet line two
of the deterministic insertion is the first line of the rendered header
only, not the full rendered header, so the claim fails as universally
stated. -/
theorem shebang_line_preserved_counterexample :
    isShellPath (str "a\nb.sh") = true ∧
    startsW (str "#!x\nrest") (str "#!") = true ∧
    hasHeader (str "a\nb.sh") (str "#!x\nrest") = false ∧
    (splitOnChar '\n' (deterministicNext (str "a\nb.sh") (str "#!x\nrest"))).take 2 =
      [str "#!x", str "# a"] ∧
    str "# a" ≠ str "# " ++ normSep (str "a\nb.sh") := by decide

/-- C4 amended: for a shell-script path containing no line-break character,
whose content is a newline-free shebang line followed by a line break and
the rest, and which does not already satisfy its rule, the deterministic
insertion keeps the shebang line unchanged as line one and renders the
header as line two, with the rest following unchanged. -/
theorem shebang_line_preserved (rel pre suf : Str)
    (hsh : isShellPath rel = true)
    (hnlrel : '\n' ∉ rel)
    (hshb : str "#!" <+: pre)
    (hnl : '\n' ∉ pre)
    (hnotyet : hasHeader rel (pre ++ '\n' :: suf) = false) :
    deterministicNext rel (pre ++ '\n' :: suf) =
      pre ++ '\n' :: ((str "# " ++ rel ++ str "\n") ++ suf) ∧
    (splitOnChar '\n' (deterministicNext rel (pre ++ '\n' :: suf))).take 2 =
      [pre, str "# " ++ rel] := by
  have hstart : startsW (pre ++ '\n' :: suf) (str "#!") = true :=
    startsW_iff.mpr (hshb.trans (List.prefix_append pre ('\n' :: suf)))
  have hfi : firstIdx '\n' (pre ++ '\n' :: suf) = some pre.length :=
    firstIdx_append suf hnl
  have heh : expectedHeader rel (pre ++ '\n' :: suf) =
      ⟨str "# " ++ rel ++ str "\n", pre.length + 1⟩ := by
    rw [expectedHeader_shell hsh, if_pos hstart, hfi]
  have hdet : deterministicNext rel (pre ++ '\n' :: suf) =
      pre ++ '\n' :: ((str "# " ++ rel ++ str "\n") ++ suf) := by
    unfold deterministicNext
    rw [heh]
    dsimp only
    rw [take_append_one '\n', drop_append_one '\n']
    simp [List.append_assoc]
  refine ⟨hdet, ?_⟩
  rw [hdet]
  have hA : '\n' ∉ (str "# " ++ rel) := by
    intro hm
    rcases List.mem_append.mp hm with hm | hm
    · exact absurd hm (by decide)
    · exact hnlrel hm
  have hnlstr : str "\n" = ['\n'] := rfl
  have hshape : (str "# " ++ rel ++ str "\n") ++ suf =
      (str "# " ++ rel) ++ '\n' :: suf := by
    rw [hnlstr]
    simp [List.append_assoc]
  rw [hshape, splitOnChar_append _ hnl, splitOnChar_append _ hA]
  simp

/-- Witness for C4: a concrete script with shebang line and body. -/
theorem shebang_line_preserved_witness :
    deterministicNext (str "run.sh") (str "#!/bin/sh" ++ '\n' :: str "echo\n") =
      str "#!/bin/sh" ++ '\n' :: ((str "# " ++ str "run.sh" ++ str "\n") ++ str "echo\n") ∧
    (splitOnChar '\n'
        (deterministicNext (str "run.sh") (str "#!/bin/sh" ++ '\n' :: str "echo\n"))).take 2 =
      [str "#!/bin/sh", str "# " ++ str "run.sh"] :=
  shebang_line_preserved (str "run.sh") (str "#!/bin/sh") (str "echo\n")
    (by decide) (by decide) (by decide) (by decide) (by decide)

/- ### Insertion satisfies detection (per kind) -/

theorem startsW_head (a t : Str) : startsW (a ++ t) a = true :=
  startsW_iff.mpr (List.prefix_append a t)

theorem prefix_extend {a b : Str} (t : Str) (h : a <+: b) : a <+: b ++ t :=
  h.trans (List.prefix_append b t)

theorem deterministicNext_of_zero {rel content hd : Str}
    (h : expectedHeader rel content = ⟨hd, 0⟩) :
    deterministicNext rel content = hd ++ content := by
  unfold deterministicNext
  rw [h]
  simp

/-- The two constant pieces of the .mdc block around the quoted path marker. -/
def mdcPre : Str := str "---" ++ '\n' :: (str "description: |" ++ '\n' :: str "  ")

/-- The tail of the .mdc block after the quoted path marker. -/
def mdcPost : Str :=
  '\n' :: joinSep '\n'
    [str "  ... restante da descrição ...", [],
     str "globs: [" ++ [apos, '*', apos] ++ str "]",
     str "alwaysApply: true", str "---", []]

theorem mdcBlock_shape (p : Str) : mdcBlock p = mdcPre ++ mdcNeedle p ++ mdcPost := by
  unfold mdcBlock mdcPre mdcPost
  simp [joinSep, List.append_assoc]

theorem mdc_startsW (p t : Str) : startsW (mdcBlock p ++ t) (str "---") = true := by
  rw [mdcBlock_shape]
  exact startsW_iff.mpr
    (prefix_extend t (prefix_extend mdcPost (prefix_extend (mdcNeedle p)
      (List.prefix_append (str "---")
        ('\n' :: (str "description: |" ++ '\n' :: str "  "))))))

theorem mdc_includes (p t : Str) :
    includesStr (mdcBlock p ++ t) (mdcNeedle p) = true := by
  refine includesStr_iff.mpr ⟨mdcPre, mdcPost ++ t, ?_⟩
  rw [mdcBlock_shape]
  simp [List.append_assoc]

theorem shell_detect_after_head {rel content : Str}
    (hA : '\n' ∉ (str "# " ++ rel)) :
    includesStr (joinSep '\n'
      ((splitOnChar '\n' ((str "# " ++ rel) ++ '\n' :: content)).take 2))
      (str "# " ++ rel) = true := by
  rw [splitOnChar_append _ hA]
  cases hs : splitOnChar '\n' content with
  | nil => exact absurd hs (splitOnChar_ne_nil _ _)
  | cons y ys =>
    show includesStr (joinSep '\n' [str "# " ++ rel, y]) (str "# " ++ rel) = true
    exact includesStr_iff.mpr ⟨[], '\n' :: y, by simp [joinSep]⟩

theorem shell_detect_second_line {rel p0 s0 : Str} (hp0 : '\n' ∉ p0)
    (hA : '\n' ∉ (str "# " ++ rel)) :
    includesStr (joinSep '\n'
      ((splitOnChar '\n' (p0 ++ '\n' :: ((str "# " ++ rel) ++ '\n' :: s0))).take 2))
      (str "# " ++ rel) = true := by
  rw [splitOnChar_append _ hp0, splitOnChar_append _ hA]
  show includesStr (joinSep '\n' [p0, str "# " ++ rel]) (str "# " ++ rel) = true
  exact includesStr_iff.mpr ⟨p0 ++ ['\n'], [], by simp [joinSep, List.append_assoc]⟩

/-- C10 counterexample: a shell-script path containing a line break is
recognized, yet the deterministic insertion does not satisfy the two-line
detection window, so the claim fails as universally stated. -/
theorem headered_after_insert_counterexample :
    recognizedPath (str "a\nb.sh") = true ∧
    hasHeader (str "a\nb.sh")
      (deterministicNext (str "a\nb.sh") (str "#!x\nrest")) = false := by decide

/-- C10 amended: for every recognized path — with shell-script paths
restricted to those containing no line-break character — inserting the
rendered header at the computed offset yields content that hasHeader
accepts, so one deterministic insertion always satisfies detection. -/
theorem headered_after_insert (rel content : Str)
    (h : recognizedPath rel = true)
    (hnl : isShellPath rel = true → '\n' ∉ rel) :
    hasHeader rel (deterministicNext rel content) = true := by
  have h10 : endsW rel (str ".ts") = true ∨ endsW rel (str ".tsx") = true ∨
      endsW rel (str ".js") = true ∨ endsW rel (str ".jsx") = true ∨
      endsW rel (str ".yaml") = true ∨ endsW rel (str ".yml") = true ∨
      endsW rel (str ".md") = true ∨ endsW rel (str ".mdc") = true ∨
      isShellPath rel = true ∨ lastSegment rel = str "Makefile" := by
    have h' := h
    unfold recognizedPath at h'
    simpa [Bool.or_eq_true, decide_eq_true_eq, or_assoc] using h'
  rcases h10 with hk | hk | hk | hk | hk | hk | hk | hk | hk | hk
  · have hg : (endsW rel (str ".ts") || endsW rel (str ".tsx") ||
        endsW rel (str ".js") || endsW rel (str ".jsx")) = true := by simp [hk]
    rw [deterministicNext_of_zero (expectedHeader_ts hg),
      hasHeader_default_of (str ".ts") hk (by decide), List.append_assoc]
    exact startsW_head _ _
  · have hg : (endsW rel (str ".ts") || endsW rel (str ".tsx") ||
        endsW rel (str ".js") || endsW rel (str ".jsx")) = true := by simp [hk]
    rw [deterministicNext_of_zero (expectedHeader_ts hg),
      hasHeader_default_of (str ".tsx") hk (by decide), List.append_assoc]
    exact startsW_head _ _
  · have hg : (endsW rel (str ".ts") || endsW rel (str ".tsx") ||
        endsW rel (str ".js") || endsW rel (str ".jsx")) = true := by simp [hk]
    rw [deterministicNext_of_zero (expectedHeader_ts hg),
      hasHeader_default_of (str ".js") hk (by decide), List.append_assoc]
    exact startsW_head _ _
  · have hg : (endsW rel (str ".ts") || endsW rel (str ".tsx") ||
        endsW rel (str ".js") || endsW rel (str ".jsx")) = true := by simp [hk]
    rw [deterministicNext_of_zero (expectedHeader_ts hg),
      hasHeader_default_of (str ".jsx") hk (by decide), List.append_assoc]
    exact startsW_head _ _
  · have hg : (endsW rel (str ".yaml") || endsW rel (str ".yml")) = true := by
      simp [hk]
    rw [deterministicNext_of_zero (expectedHeader_yaml hg), hasHeader_yaml hg,
      List.append_assoc]
    exact startsW_head _ _
  · have hg : (endsW rel (str ".yaml") || endsW rel (str ".yml")) = true := by
      simp [hk]
    rw [deterministicNext_of_zero (expectedHeader_yaml hg), hasHeader_yaml hg,
      List.append_assoc]
    exact startsW_head _ _
  · rw [deterministicNext_of_zero (expectedHeader_md hk), hasHeader_md hk]
    refine startsW_iff.mpr ⟨str "\n\n" ++ content, ?_⟩
    have e : str " -->" ++ str "\n\n" = str " -->\n\n" := by decide
    rw [← e]
    simp [List.append_assoc]
  · rw [deterministicNext_of_zero (expectedHeader_mdc hk), hasHeader_mdc hk,
      List.append_assoc, mdc_startsW rel (str "\n" ++ content),
      mdc_includes rel (str "\n" ++ content)]
    rfl
  · have hA : '\n' ∉ (str "# " ++ rel) := by
      intro hm
      rcases List.mem_append.mp hm with hm | hm
      · exact absurd hm (by decide)
      · exact hnl hk hm
    have hnlstr : str "\n" = ['\n'] := rfl
    by_cases hb : startsW content (str "#!") = true
    · rcases hfi : firstIdx '\n' content with _ | i
      · have heh0 : expectedHeader rel content = ⟨str "# " ++ rel ++ str "\n", 0⟩ := by
          rw [expectedHeader_shell hk, if_pos hb, hfi]
        rw [deterministicNext_of_zero heh0, hasHeader_shell hk]
        have hshape : (str "# " ++ rel ++ str "\n") ++ content =
            (str "# " ++ rel) ++ '\n' :: content := by
          rw [hnlstr]
          simp [List.append_assoc]
        rw [hshape]
        exact shell_detect_after_head hA
      · obtain ⟨p0, s0, hdec, hp0, hlen⟩ := firstIdx_some hfi
        subst hlen
        subst hdec
        have heh : expectedHeader rel (p0 ++ '\n' :: s0) =
            ⟨str "# " ++ rel ++ str "\n", p0.length + 1⟩ := by
          rw [expectedHeader_shell hk, if_pos hb, hfi]
        have hdet : deterministicNext rel (p0 ++ '\n' :: s0) =
            p0 ++ '\n' :: ((str "# " ++ rel) ++ '\n' :: s0) := by
          unfold deterministicNext
          rw [heh]
          dsimp only
          rw [take_append_one '\n', drop_append_one '\n', hnlstr]
          simp [List.append_assoc]
        rw [hdet, hasHeader_shell hk]
        exact shell_detect_second_line hp0 hA
    · have heh0 : expectedHeader rel content = ⟨str "# " ++ rel ++ str "\n", 0⟩ := by
        rw [expectedHeader_shell hk, if_neg hb]
      rw [deterministicNext_of_zero heh0, hasHeader_shell hk]
      have hshape : (str "# " ++ rel ++ str "\n") ++ content =
          (str "# " ++ rel) ++ '\n' :: content := by
        rw [hnlstr]
        simp [List.append_assoc]
      rw [hshape]
      exact shell_detect_after_head hA
  · rw [deterministicNext_of_zero (expectedHeader_makefile hk),
      hasHeader_makefile hk, List.append_assoc]
    exact startsW_head _ _

/-- Witness for the amended C10 on a concrete shell script with shebang. -/
theorem headered_after_insert_witness :
    hasHeader (str "run.sh") (deterministicNext (str "run.sh") (str "#!x\nrest")) = true :=
  headered_after_insert (str "run.sh") (str "#!x\nrest") (by decide) (by decide)

/-- The observed.ts content of the end-to-end scenario (the apostrophes of
the console.log argument are spliced as the apos character). -/
def demoObservedContent : Str :=
  str "console.log(" ++ [apos] ++ str "hello" ++ [apos] ++ str ");\n"

/-- The scenario filesystem: an ignore file listing ignored.txt plus the two
changed files. -/
def demoFs : List (Str × Str) :=
  [(str ".addheaderignore", str "ignored.txt\n"),
   (str "observed.ts", demoObservedContent),
   (str "ignored.txt", str "sem cabecalho\n")]

/-- C7: with the rewrite collaborator disabled and the ignore file listing
ignored.txt, one run prepends the path comment to observed.ts, leaves
ignored.txt byte-identical, stages only observed.ts, and reports exactly
one edit. -/
theorem run_demo_scenario :
    run simpleIgnoreMatch ⟨none, none⟩ (fun _ _ => []) ⟨demoFs, []⟩
        [str "observed.ts", str "ignored.txt"] =
      (⟨[(str ".addheaderignore", str "ignored.txt\n"),
         (str "observed.ts", str "// observed.ts\n" ++ demoObservedContent),
         (str "ignored.txt", str "sem cabecalho\n")], [str "observed.ts"]⟩, 1) := by
  decide
